import Mathlib

/-!
Shallow embedding of the HTML extraction core of tp-lint (src/tp_lint.py):
the three streaming parsers TeamPageParser, TeamIndexParser and MatrixParser,
modelled as state machines driven by a stream of HTML events (start tag,
end tag, text), together with theorems about the extraction behaviour.

Modelling conventions:
- Python strings are Lean String, Python dicts are association lists with
  in-place update (dinsert, matching dict assignment semantics: an existing
  key keeps its position, a new key is appended).
- The regular expressions of the source are compiled by hand to executable
  functions on List Char; each such function carries a comment naming the
  pattern it implements, with Python re.match anchored at the start (and
  the dollar anchor also accepting one final newline) and re.search trying
  every start position from the left.
- Python int() is modelled for optional sign, ASCII digits and single
  underscores between digits; str.strip() for the whitespace characters
  that occur in the parsed pages (including the no-break space, which
  Python treats as whitespace); str.isdigit() for ASCII digits.
-/

/-- Whitespace for the Python str.strip() model. -/
def isPySpace (c : Char) : Bool :=
  c == ' ' || c == '\t' || c == '\n' || c == '\r' || c == '\u000B' ||
    c == '\u000C' || c == '\u00A0'

/-- Python str.strip(): remove leading and trailing whitespace. -/
def pyStrip (s : String) : String :=
  String.mk (((s.data.dropWhile isPySpace).reverse.dropWhile isPySpace).reverse)

def isAsciiDigit (c : Char) : Bool := '0' ≤ c && c ≤ '9'

def isLowerAZ (c : Char) : Bool := 'a' ≤ c && c ≤ 'z'

def isUpperAZ (c : Char) : Bool := 'A' ≤ c && c ≤ 'Z'

/-- Digit run accepted by Python int(): ASCII digits with single
underscores allowed between digits, at least one digit. -/
def digitsCore : List Char → Bool
  | [] => false
  | [c] => isAsciiDigit c
  | c :: c2 :: rest =>
    if isAsciiDigit c then
      if c2 == '_' then digitsCore rest else digitsCore (c2 :: rest)
    else false

def digitsVal (l : List Char) : Nat :=
  l.foldl (fun a c => a * 10 + (c.toNat - '0'.toNat)) 0

/-- Python int(str): strip whitespace, optional sign, digit run; None on
failure (modelling the raised ValueError as Option.none). -/
def pyInt (s : String) : Option Int :=
  match (pyStrip s).data with
  | '+' :: rest =>
    if digitsCore rest then some (Int.ofNat (digitsVal (rest.filter isAsciiDigit))) else none
  | '-' :: rest =>
    if digitsCore rest then some (-(Int.ofNat (digitsVal (rest.filter isAsciiDigit)))) else none
  | rest =>
    if digitsCore rest then some (Int.ofNat (digitsVal (rest.filter isAsciiDigit))) else none

/-- int() on a string known to parse (used where the source guards the
conversion with isdigit()). -/
def pyIntVal (s : String) : Int := (pyInt s).getD 0

/-- Python str.isdigit(), modelled over ASCII digits. -/
def pyIsDigit (s : String) : Bool := !s.data.isEmpty && s.data.all isAsciiDigit

/-- Python s.replace with empty replacement for the percent sign:
cell.replace(chr(37), empty) removes every percent character. -/
def removePct (s : String) : String := String.mk (s.data.filter (fun c => c != '%'))

def listStartsWith : List Char → List Char → Bool
  | _, [] => true
  | [], _ :: _ => false
  | a :: as, b :: bs => a == b && listStartsWith as bs

def listContainsSub : List Char → List Char → Bool
  | [], pat => listStartsWith [] pat
  | a :: as, pat => listStartsWith (a :: as) pat || listContainsSub as pat

def listEndsWith (l pat : List Char) : Bool := listStartsWith l.reverse pat.reverse

/-- Python substring containment (pat in s). -/
def strContains (s pat : String) : Bool := listContainsSub s.data pat.data

/-- Python str.startswith. -/
def strStartsWith (s pat : String) : Bool := listStartsWith s.data pat.data

/-- Python str.endswith. -/
def strEndsWith (s pat : String) : Bool := listEndsWith s.data pat.data

/-- Python slicing s[n:] (by code points). -/
def strDrop (s : String) (n : Nat) : String := String.mk (s.data.drop n)

/-- Python s.split(slash)[-1]: the part after the last slash. -/
def splitLast (s : String) : String :=
  String.mk ((s.data.reverse.takeWhile (fun c => c != '/')).reverse)

/-- Association-list model of a Python dict with String keys. -/
abbrev Dict (α : Type) : Type := List (String × α)

/-- Python dict assignment d[k] = v: update in place if the key exists,
otherwise append at the end. -/
def dinsert {α : Type} : Dict α → String → α → Dict α
  | [], k, v => [(k, v)]
  | (k2, v2) :: rest, k, v =>
    if k2 = k then (k, v) :: rest else (k2, v2) :: dinsert rest k v

/-- The keys of a dict, in insertion order. -/
def dkeys {α : Type} (m : Dict α) : List String := m.map Prod.fst

/-- dict(attrs).get(k, default empty): with duplicate attribute names the
last occurrence wins, as in the Python dict constructor. -/
def dictGet (attrs : List (String × String)) (k : String) : String :=
  ((attrs.reverse).lookup k).getD ""

/-- Python truthiness of an optional string (None and the empty string are
falsy). -/
def pyTruthy : Option String → Bool
  | none => false
  | some x => x != ""

/-- Python enumerate, starting at a given index. -/
def pyEnumFrom {α : Type} (n : Nat) : List α → List (Nat × α)
  | [] => []
  | a :: as => (n, a) :: pyEnumFrom (n + 1) as

def pyEnumerate {α : Type} (l : List α) : List (Nat × α) := pyEnumFrom 0 l

/-- One event of the token-stream HTML parser (html.parser.HTMLParser
callbacks handle_starttag, handle_endtag, handle_data). -/
inductive HEvent : Type where
  | startTag : String → List (String × String) → HEvent
  | endTag : String → HEvent
  | text : String → HEvent
deriving DecidableEq, Repr

/-- The Translation Project base URL (TP_BASE in the source). -/
def TP_BASE : String := "https://translationproject.org"

/-- Relative-to-absolute URL normalization for PO-file links
(tp_lint.py lines 89-92). -/
def normalizePoHref (href : String) : String :=
  if strStartsWith href "../" then TP_BASE ++ "/" ++ strDrop href 3
  else if strStartsWith href "/" then TP_BASE ++ href
  else href

/-- Suffix part of the pattern for PO filenames: dot-star backslash-dot po
dollar, where dot-star excludes newlines and the dollar also accepts one
final newline. -/
def dotStarPoEnd (rest : List Char) : Bool :=
  (listEndsWith rest ".po".data && !((rest.take (rest.length - 3)).contains '\n'))
  || (listEndsWith rest ".po\n".data && !((rest.take (rest.length - 4)).contains '\n'))

/-- re.match of the PO-filename pattern (group of non-hyphen characters,
a hyphen, anything ending in .po) returning the captured group
(tp_lint.py line 96). -/
def matchPoDomain (filename : String) : Option String :=
  match filename.data.dropWhile (fun c => c != '-') with
  | '-' :: rest =>
    if !(filename.data.takeWhile (fun c => c != '-')).isEmpty && dotStarPoEnd rest then
      some (String.mk (filename.data.takeWhile (fun c => c != '-')))
    else none
  | _ => none

/-- re.match of the anchored team-page domain-link pattern (two parent
segments, domain slash, a group of non-dot characters, .html at the end),
returning the captured group (tp_lint.py line 101). -/
def matchDomainHref (href : String) : Option String :=
  if listStartsWith href.data "../domain/".data
      && !((href.data.drop 10).takeWhile (fun c => c != '.')).isEmpty
      && ((href.data.drop 10).dropWhile (fun c => c != '.') == ".html".data
          || (href.data.drop 10).dropWhile (fun c => c != '.') == ".html\n".data) then
    some (String.mk ((href.data.drop 10).takeWhile (fun c => c != '.')))
  else none

/-- State of TeamPageParser (the _in_table field of the source is
initialized but never read or written afterwards, so it is omitted). -/
structure TeamPageState : Type where
  po_files : List String
  translators : Dict String
  current_domain : Option String
  in_translator_cell : Bool
deriving DecidableEq, Repr

/-- TeamPageParser.handle_starttag (tp_lint.py lines 83-105). -/
def TeamPage.handleStarttag (s : TeamPageState) (tag : String)
    (attrs : List (String × String)) : TeamPageState :=
  if tag = "a" then
    if strContains (dictGet attrs "href") "/PO-files/"
        && strEndsWith (dictGet attrs "href") ".po" then
      match matchPoDomain (splitLast (normalizePoHref (dictGet attrs "href"))) with
      | some dom =>
        { s with po_files := s.po_files ++ [normalizePoHref (dictGet attrs "href")],
                 current_domain := some dom }
      | none =>
        { s with po_files := s.po_files ++ [normalizePoHref (dictGet attrs "href")] }
    else if strContains (dictGet attrs "href") "/domain/" then
      match matchDomainHref (dictGet attrs "href") with
      | some dom => { s with current_domain := some dom }
      | none => s
    else if strContains (dictGet attrs "href") "mailto:" then
      { s with in_translator_cell := true }
    else s
  else s

/-- TeamPageParser.handle_data (tp_lint.py lines 107-111). -/
def TeamPage.handleData (s : TeamPageState) (d : String) : TeamPageState :=
  if s.in_translator_cell && pyStrip d != "" && pyTruthy s.current_domain then
    { s with translators := dinsert s.translators (s.current_domain.getD "") (pyStrip d),
             in_translator_cell := false }
  else s

/-- TeamPageParser.handle_endtag (tp_lint.py lines 113-116). -/
def TeamPage.handleEndtag (s : TeamPageState) (tag : String) : TeamPageState :=
  if tag = "tr" then { s with current_domain := none, in_translator_cell := false }
  else s

def TeamPage.step (s : TeamPageState) : HEvent → TeamPageState
  | .startTag t a => TeamPage.handleStarttag s t a
  | .endTag t => TeamPage.handleEndtag s t
  | .text d => TeamPage.handleData s d

def TeamPage.init : TeamPageState :=
  { po_files := [], translators := [], current_domain := none, in_translator_cell := false }

def TeamPage.run (evs : List HEvent) : TeamPageState :=
  evs.foldl TeamPage.step TeamPage.init

/-- An anchor start tag whose href contains the mailto scheme (the only
kind of event that can set in_translator_cell). -/
def isMailtoAnchor : HEvent → Bool
  | .startTag t attrs => t == "a" && strContains (dictGet attrs "href") "mailto:"
  | _ => false

/-- re.match of the anchored language-link pattern on the team index page:
a group of two or three lowercase letters then .html at the end
(tp_lint.py line 132); greedy, so three letters are tried first. -/
def lang23At (l : List Char) (n : Nat) : Bool :=
  (l.take n).length == n && (l.take n).all isLowerAZ
    && (l.drop n == ".html".data || l.drop n == ".html\n".data)

def matchLangHref (href : String) : Bool :=
  lang23At href.data 3 || lang23At href.data 2

/-- re.match of the capitalized-word pattern: an uppercase letter followed
by at least one lowercase letter, rest unconstrained (tp_lint.py line 139). -/
def matchCapWord (s : String) : Bool :=
  match s.data with
  | c1 :: c2 :: _ => isUpperAZ c1 && isLowerAZ c2
  | _ => false

/-- re.match of the anchored code-cell pattern: exactly two or three
lowercase letters (tp_lint.py line 141); applied to stripped data, so the
final-newline case of the dollar anchor cannot arise. -/
def matchCode23 (s : String) : Bool :=
  s.data.all isLowerAZ && (s.data.length == 2 || s.data.length == 3)

/-- State of TeamIndexParser; prev_tag is None before any start tag. -/
structure TeamIndexState : Type where
  languages : List (String × String)
  prev_tag : Option String
  current_lang_name : Option String
deriving DecidableEq, Repr

/-- TeamIndexParser.handle_starttag (tp_lint.py lines 128-134). -/
def TeamIndex.handleStarttag (s : TeamIndexState) (tag : String)
    (attrs : List (String × String)) : TeamIndexState :=
  if tag = "a" ∧ matchLangHref (dictGet attrs "href") = true then
    { s with prev_tag := some tag, current_lang_name := none }
  else { s with prev_tag := some tag }

/-- TeamIndexParser.handle_data (tp_lint.py lines 136-143); the append of
a match requires a truthy pending name, as in the source. -/
def TeamIndex.handleData (s : TeamIndexState) (d : String) : TeamIndexState :=
  if s.prev_tag = some "a" ∧ pyStrip d ≠ "" ∧ strStartsWith (pyStrip d) "mailto:" = false then
    if matchCapWord (pyStrip d) then { s with current_lang_name := some (pyStrip d) }
    else s
  else if s.prev_tag = some "td" ∧ matchCode23 (pyStrip d) = true then
    if pyTruthy s.current_lang_name then
      { s with languages := s.languages ++ [(pyStrip d, s.current_lang_name.getD "")] }
    else s
  else s

def TeamIndex.step (s : TeamIndexState) : HEvent → TeamIndexState
  | .startTag t a => TeamIndex.handleStarttag s t a
  | .endTag _ => s
  | .text d => TeamIndex.handleData s d

def TeamIndex.init : TeamIndexState :=
  { languages := [], prev_tag := none, current_lang_name := none }

def TeamIndex.run (evs : List HEvent) : TeamIndexState :=
  evs.foldl TeamIndex.step TeamIndex.init

/-- re.search of the patterns used by MatrixParser (a literal segment such
as slash-team-slash or slash-domain-slash, a group of one or more non-dot
characters, then .html, unanchored): try every start position from the
left; at a matching literal the group is the maximal non-dot run, which
must be nonempty and followed by .html. -/
def searchSeg (seg : List Char) : List Char → Option (List Char)
  | [] => none
  | c :: rest =>
    if listStartsWith (c :: rest) seg
        && !(((c :: rest).drop seg.length).takeWhile (fun x => x != '.')).isEmpty
        && listStartsWith (((c :: rest).drop seg.length).dropWhile (fun x => x != '.'))
             ".html".data then
      some (((c :: rest).drop seg.length).takeWhile (fun x => x != '.'))
    else searchSeg seg rest

/-- State of MatrixParser (tp_lint.py lines 149-162). -/
structure MatrixState : Type where
  languages : List String
  lang_percentages : Dict Int
  domains : Dict (Dict Int)
  domain_counts : Dict Int
  in_header : Bool
  in_pct_row : Bool
  current_row : List String
  current_domain : Option String
  cell_index : Nat
  in_td : Bool
  td_content : String
  current_href : Option String
deriving DecidableEq, Repr

/-- The loop of the summary-row branch of MatrixParser._process_row
(tp_lint.py lines 218-224), over enumerate(languages). -/
def pctLoop (row : List String) : Dict Int → List (Nat × String) → Dict Int
  | lp, [] => lp
  | lp, (i, lang) :: rest =>
    if i + 2 < row.length then
      match pyInt (removePct (row.getD (i + 2) "")) with
      | some n => pctLoop row (dinsert lp lang n) rest
      | none => pctLoop row (dinsert lp lang 0) rest
    else pctLoop row lp rest

/-- The loop of the domain-row branch of MatrixParser._process_row
(tp_lint.py lines 231-244): thread the domains dict and the running count;
skip empty and no-break-space cells; store only successful parses. -/
def domLoop (row : List String) (d : String) :
    Dict (Dict Int) → Int → List (Nat × String) → Dict (Dict Int) × Int
  | doms, c, [] => (doms, c)
  | doms, c, (i, lang) :: rest =>
    if i + 2 < row.length then
      if row.getD (i + 2) "" ≠ "" ∧ row.getD (i + 2) "" ≠ "\u00A0" then
        match pyInt (removePct (row.getD (i + 2) "")) with
        | some pct =>
          domLoop row d
            (dinsert doms d (dinsert ((doms.lookup d).getD []) lang pct)) (c + 1) rest
        | none => domLoop row d doms c rest
      else domLoop row d doms c rest
    else domLoop row d doms c rest

/-- MatrixParser._process_row (tp_lint.py lines 210-249).  The guard on the
domain branch uses Python truthiness of _current_domain. -/
def MatrixPage.processRow (s : MatrixState) : MatrixState :=
  if s.current_row.length < 3 then s
  else if s.current_row.getD 1 "" = "Pct" then
    { s with in_pct_row := true,
             lang_percentages :=
               pctLoop s.current_row s.lang_percentages (pyEnumerate s.languages) }
  else if pyTruthy s.current_domain then
    { s with
      domains :=
        (domLoop s.current_row (s.current_domain.getD "")
          (dinsert s.domains (s.current_domain.getD "") []) 0 (pyEnumerate s.languages)).1,
      domain_counts :=
        dinsert s.domain_counts (s.current_domain.getD "")
          (if pyIsDigit (s.current_row.getLastD "") then pyIntVal (s.current_row.getLastD "")
           else (domLoop s.current_row (s.current_domain.getD "")
             (dinsert s.domains (s.current_domain.getD "") []) 0 (pyEnumerate s.languages)).2) }
  else s

/-- MatrixParser.handle_starttag (tp_lint.py lines 164-195); _current_href
is recorded for every anchor inside a cell before the branch on its target,
as in the source. -/
def MatrixPage.handleStarttag (s : MatrixState) (tag : String)
    (attrs : List (String × String)) : MatrixState :=
  if tag = "thead" then { s with in_header := true }
  else if tag = "tbody" then { s with in_header := false }
  else if tag = "tr" then { s with current_row := [], cell_index := 0, current_domain := none }
  else if tag = "th" ∧ s.in_header = true then
    { s with in_td := true, td_content := "", current_href := none }
  else if tag = "td" then { s with in_td := true, td_content := "", current_href := none }
  else if tag = "a" ∧ s.in_td = true then
    if s.in_header = true ∧ strContains (dictGet attrs "href") "/team/" = true then
      match searchSeg "/team/".data (dictGet attrs "href").data with
      | some run =>
        { s with current_href := some (dictGet attrs "href"),
                 languages := s.languages ++ [String.mk run] }
      | none => { s with current_href := some (dictGet attrs "href") }
    else if strContains (dictGet attrs "href") "/domain/" = true then
      match searchSeg "/domain/".data (dictGet attrs "href").data with
      | some run =>
        { s with current_href := some (dictGet attrs "href"),
                 current_domain := some (String.mk run) }
      | none => { s with current_href := some (dictGet attrs "href") }
    else { s with current_href := some (dictGet attrs "href") }
  else s

/-- MatrixParser.handle_data (tp_lint.py lines 197-199). -/
def MatrixPage.handleData (s : MatrixState) (d : String) : MatrixState :=
  if s.in_td then { s with td_content := s.td_content ++ pyStrip d } else s

/-- MatrixParser.handle_endtag (tp_lint.py lines 201-208). -/
def MatrixPage.handleEndtag (s : MatrixState) (tag : String) : MatrixState :=
  if tag = "td" ∨ tag = "th" then
    { s with current_row := s.current_row ++ [pyStrip s.td_content],
             cell_index := s.cell_index + 1, in_td := false }
  else if tag = "tr" ∧ s.in_header = false then MatrixPage.processRow s
  else s

def MatrixPage.step (s : MatrixState) : HEvent → MatrixState
  | .startTag t a => MatrixPage.handleStarttag s t a
  | .endTag t => MatrixPage.handleEndtag s t
  | .text d => MatrixPage.handleData s d

def MatrixPage.init : MatrixState :=
  { languages := [], lang_percentages := [], domains := [], domain_counts := [],
    in_header := false, in_pct_row := false, current_row := [], current_domain := none,
    cell_index := 0, in_td := false, td_content := "", current_href := none }

def MatrixPage.run (evs : List HEvent) : MatrixState :=
  evs.foldl MatrixPage.step MatrixPage.init

/-- The effect of the domain-row loop on the single entry of the row's
domain, computed from an explicit entry and count (used to state that a
row overwrites the entry of its domain wholesale). -/
def rowEntryLoop (row : List String) : Dict Int → Int → List (Nat × String) → Dict Int × Int
  | e, c, [] => (e, c)
  | e, c, (i, lang) :: rest =>
    if i + 2 < row.length then
      if row.getD (i + 2) "" ≠ "" ∧ row.getD (i + 2) "" ≠ "\u00A0" then
        match pyInt (removePct (row.getD (i + 2) "")) with
        | some pct => rowEntryLoop row (dinsert e lang pct) (c + 1) rest
        | none => rowEntryLoop row e c rest
      else rowEntryLoop row e c rest
    else rowEntryLoop row e c rest

/-- The per-domain entry and count produced by a single domain row, starting
from the empty entry (what _process_row computes after re-initializing
domains[current_domain] to the empty dict). -/
def rowSummary (langs row : List String) : Dict Int × Int :=
  ((rowEntryLoop row [] 0 (pyEnumerate langs)).1,
   if pyIsDigit (row.getLastD "") then pyIntVal (row.getLastD "")
   else (rowEntryLoop row [] 0 (pyEnumerate langs)).2)

/-- Key-subset invariant of the matrix extractor state: every key of
lang_percentages is a language and has no duplicate, and every key of
every per-domain entry is a language. -/
def MInv (st : MatrixState) : Prop :=
  (∀ k, k ∈ dkeys st.lang_percentages → k ∈ st.languages)
  ∧ (dkeys st.lang_percentages).Nodup
  ∧ (∀ d e, st.domains.lookup d = some e → ∀ k, k ∈ dkeys e → k ∈ st.languages)

/-- Event stream of a small matrix page: a header naming languages en and
fr, then the summary row with cells empty, Pct, 87 percent, 42 percent. -/
def summaryPageEvents : List HEvent := [
  .startTag "thead" [],
  .startTag "tr" [],
  .startTag "th" [], .startTag "a" [("href", "/team/en.html")], .endTag "a", .endTag "th",
  .startTag "th" [], .startTag "a" [("href", "/team/fr.html")], .endTag "a", .endTag "th",
  .endTag "tr",
  .startTag "tbody" [],
  .startTag "tr" [],
  .startTag "td" [], .endTag "td",
  .startTag "td" [], .text "Pct", .endTag "td",
  .startTag "td" [], .text "87%", .endTag "td",
  .startTag "td" [], .text "42%", .endTag "td",
  .endTag "tr"]

/-- Matrix parser state about to process the domain row
coreutils, empty, 100 percent, no-break space, with languages en and fr. -/
def coreutilsRowState : MatrixState :=
  { MatrixPage.init with
      languages := ["en", "fr"],
      current_domain := some "coreutils",
      current_row := ["coreutils", "", "100%", "\u00A0"] }

/-- Event stream of a small matrix page whose body has both a summary row
and a domain row, for witnesses of the key-subset invariant. -/
def mixedPageEvents : List HEvent := [
  .startTag "thead" [],
  .startTag "tr" [],
  .startTag "th" [], .startTag "a" [("href", "/team/en.html")], .endTag "a", .endTag "th",
  .endTag "tr",
  .startTag "tbody" [],
  .startTag "tr" [],
  .startTag "td" [], .endTag "td",
  .startTag "td" [], .text "Pct", .endTag "td",
  .startTag "td" [], .text "87%", .endTag "td",
  .endTag "tr",
  .startTag "tr" [],
  .startTag "td" [], .startTag "a" [("href", "/domain/hello.html")], .text "hello",
  .endTag "a", .endTag "td",
  .startTag "td" [], .endTag "td",
  .startTag "td" [], .text "100%", .endTag "td",
  .endTag "tr"]

/-- Event stream of a matrix page whose summary row carries the cell
150 percent for language en (a value the site never produces, used to
settle the range claim). -/
def overflowPageEvents : List HEvent := [
  .startTag "thead" [],
  .startTag "tr" [],
  .startTag "th" [], .startTag "a" [("href", "/team/en.html")], .endTag "a", .endTag "th",
  .endTag "tr",
  .startTag "tbody" [],
  .startTag "tr" [],
  .startTag "td" [], .endTag "td",
  .startTag "td" [], .text "Pct", .endTag "td",
  .startTag "td" [], .text "150%", .endTag "td",
  .endTag "tr"]

/-- Matrix parser state about to process a domain row whose cell for
language en is minus 5 percent. -/
def negativeRowState : MatrixState :=
  { MatrixPage.init with
      languages := ["en"],
      current_domain := some "hello",
      current_row := ["hello", "", "-5%"] }

/-- Anchor event for the PO-file link of coreutils (filename-derived
domain guess coreutils). -/
def poLinkEvent : HEvent := .startTag "a" [("href", "../PO-files/coreutils-9.1.sv.po")]

/-- Anchor event for the domain-detail link naming findutils. -/
def domainLinkEvent : HEvent := .startTag "a" [("href", "../domain/findutils.html")]

/-- First table row of the two-row translator-association test: it has the
only mailto link of the stream and some following text. -/
def mailRowEvents : List HEvent := [
  .startTag "tr" [],
  .startTag "td" [], .startTag "a" [("href", "mailto:alice@example.org")], .endTag "a",
  .endTag "td",
  .startTag "td" [], .text "Alice Smith", .endTag "td"]

/-- Second table row of the two-row translator-association test: it
introduces the domain findutils but has no mailto link. -/
def domainRowEvents : List HEvent := [
  .startTag "tr" [],
  .startTag "td" [], .startTag "a" [("href", "../domain/findutils.html")], .endTag "a",
  .endTag "td",
  .startTag "td" [], .text "Bob Jones", .endTag "td",
  .endTag "tr"]

/-- Matrix parser state about to process a summary row whose cell for
language en is the unparseable text abc percent. -/
def malformedPctRowState : MatrixState :=
  { MatrixPage.init with
      languages := ["en"],
      current_row := ["", "Pct", "abc%"] }

/-- Matrix parser state about to process a domain row for coreutils while
domains and domain_counts still hold the outcome of an earlier coreutils
row, with different per-language values. -/
def staleDomainState : MatrixState :=
  { MatrixPage.init with
      languages := ["en", "fr"],
      current_domain := some "coreutils",
      current_row := ["coreutils", "", "50%", "25%"],
      domains := [("coreutils", [("fr", 99)])],
      domain_counts := [("coreutils", 7)] }

/-! ### Lemmas about the dict model -/

theorem lookup_dinsert {α : Type} (m : Dict α) (k k2 : String) (v : α) :
    (dinsert m k v).lookup k2 = if k2 = k then some v else m.lookup k2 := by
  induction m with
  | nil =>
    by_cases h : k2 = k
    · simp [dinsert, List.lookup_cons, h]
    · simp [dinsert, List.lookup_cons, h, beq_false_of_ne h]
  | cons p rest ih =>
    obtain ⟨k3, v3⟩ := p
    by_cases h3 : k3 = k
    · subst h3
      by_cases h : k2 = k3
      · simp [dinsert, List.lookup_cons, h]
      · simp [dinsert, List.lookup_cons, h, beq_false_of_ne h]
    · by_cases h : k2 = k3
      · have hk : ¬ k2 = k := fun hh => h3 (h.symm.trans hh)
        simp [dinsert, h3, List.lookup_cons, h, hk]
      · simp [dinsert, h3, List.lookup_cons, beq_false_of_ne h, h, ih]

theorem mem_dkeys_dinsert {α : Type} {m : Dict α} {k x : String} {v : α}
    (h : x ∈ dkeys (dinsert m k v)) : x = k ∨ x ∈ dkeys m := by
  induction m with
  | nil => simpa [dinsert, dkeys] using h
  | cons p rest ih =>
    obtain ⟨k3, v3⟩ := p
    by_cases h3 : k3 = k
    · subst h3
      simpa [dinsert, dkeys] using h
    · simp only [dinsert, if_neg h3, dkeys, List.map_cons, List.mem_cons] at h
      rcases h with h | h
      · exact Or.inr (by simp [dkeys, h])
      · rcases ih h with h | h
        · exact Or.inl h
        · exact Or.inr (by simp [dkeys] at h ⊢; exact Or.inr h)

theorem nodup_dkeys_dinsert {α : Type} {m : Dict α} (k : String) (v : α)
    (h : (dkeys m).Nodup) : (dkeys (dinsert m k v)).Nodup := by
  induction m with
  | nil => simp [dinsert, dkeys]
  | cons p rest ih =>
    obtain ⟨k3, v3⟩ := p
    simp only [dkeys, List.map_cons, List.nodup_cons] at h
    by_cases h3 : k3 = k
    · subst h3
      simpa [dinsert, dkeys] using h
    · simp only [dinsert, if_neg h3, dkeys, List.map_cons, List.nodup_cons]
      refine ⟨fun hmem => ?_, ih h.2⟩
      rcases mem_dkeys_dinsert hmem with h4 | h4
      · exact h3 h4
      · exact h.1 h4

theorem length_dinsert_mem {α : Type} (m : Dict α) (k : String) (v : α)
    (h : k ∈ dkeys m) : (dinsert m k v).length = m.length := by
  induction m with
  | nil => simp [dkeys] at h
  | cons p rest ih =>
    obtain ⟨k3, v3⟩ := p
    by_cases h3 : k3 = k
    · simp [dinsert, h3]
    · simp only [dkeys, List.map_cons, List.mem_cons] at h
      rcases h with h | h
      · exact absurd h.symm h3
      · simp [dinsert, h3, ih h]

theorem mem_of_mem_pyEnumFrom {α : Type} {p : Nat × α} :
    ∀ (n : Nat) (l : List α), p ∈ pyEnumFrom n l → p.2 ∈ l := by
  intro n l
  induction l generalizing n with
  | nil => simp [pyEnumFrom]
  | cons a as ih =>
    intro h
    simp only [pyEnumFrom, List.mem_cons] at h
    rcases h with h | h
    · simp [h]
    · exact List.mem_cons_of_mem _ (ih _ h)

theorem nodup_length_le {α : Type} [DecidableEq α] :
    ∀ (l1 l2 : List α), l1.Nodup → (∀ x ∈ l1, x ∈ l2) → l1.length ≤ l2.length := by
  intro l1
  induction l1 with
  | nil => intro l2 _ _; simp
  | cons a as ih =>
    intro l2 hnd hsub
    have ha : a ∈ l2 := hsub a (List.mem_cons_self a as)
    have hnd2 := List.nodup_cons.mp hnd
    have hsub2 : ∀ x ∈ as, x ∈ l2.erase a := by
      intro x hx
      refine (List.mem_erase_of_ne ?_).mpr (hsub x (List.mem_cons_of_mem _ hx))
      intro hxa
      exact hnd2.1 (hxa ▸ hx)
    have h1 := ih (l2.erase a) hnd2.2 hsub2
    have h2 : (l2.erase a).length = l2.length - 1 := List.length_erase_of_mem ha
    have h3 : 0 < l2.length := List.length_pos.mpr (List.ne_nil_of_mem ha)
    simp only [List.length_cons]
    omega

/-! ### Invariant preservation for the matrix extractor -/

theorem minv_of_fields {s s2 : MatrixState} (h : MInv s)
    (hlp : s2.lang_percentages = s.lang_percentages)
    (hd : s2.domains = s.domains)
    (hl : ∀ k, k ∈ s.languages → k ∈ s2.languages) : MInv s2 := by
  obtain ⟨h1, h2, h3⟩ := h
  refine ⟨?_, ?_, ?_⟩
  · intro k hk
    rw [hlp] at hk
    exact hl k (h1 k hk)
  · rw [hlp]; exact h2
  · intro d e he k hk
    rw [hd] at he
    exact hl k (h3 d e he k hk)

theorem pctLoop_minv (row : List String) (langs : List String) :
    ∀ (pairs : List (Nat × String)) (lp : Dict Int),
      (∀ p ∈ pairs, p.2 ∈ langs) →
      (∀ k, k ∈ dkeys lp → k ∈ langs) → (dkeys lp).Nodup →
      (∀ k, k ∈ dkeys (pctLoop row lp pairs) → k ∈ langs)
        ∧ (dkeys (pctLoop row lp pairs)).Nodup := by
  intro pairs
  induction pairs with
  | nil => intro lp _ h1 h2; exact ⟨h1, h2⟩
  | cons p rest ih =>
    obtain ⟨i, lang⟩ := p
    intro lp hp h1 h2
    have hlang : lang ∈ langs := hp (i, lang) (List.mem_cons_self _ _)
    have hrest : ∀ q ∈ rest, q.2 ∈ langs := fun q hq => hp q (List.mem_cons_of_mem _ hq)
    have hins : ∀ (v : Int),
        (∀ k, k ∈ dkeys (dinsert lp lang v) → k ∈ langs) ∧ (dkeys (dinsert lp lang v)).Nodup := by
      intro v
      constructor
      · intro k hk
        rcases mem_dkeys_dinsert hk with h | h
        · exact h ▸ hlang
        · exact h1 k h
      · exact nodup_dkeys_dinsert _ _ h2
    simp only [pctLoop]
    split
    · split
      · exact ih _ hrest (hins _).1 (hins _).2
      · exact ih _ hrest (hins _).1 (hins _).2
    · exact ih _ hrest h1 h2

theorem domLoop_minv (row : List String) (d : String) (langs : List String) :
    ∀ (pairs : List (Nat × String)) (doms : Dict (Dict Int)) (c : Int),
      (∀ p ∈ pairs, p.2 ∈ langs) →
      (∀ d2 e, doms.lookup d2 = some e → ∀ k, k ∈ dkeys e → k ∈ langs) →
      (∀ d2 e, (domLoop row d doms c pairs).1.lookup d2 = some e →
        ∀ k, k ∈ dkeys e → k ∈ langs) := by
  intro pairs
  induction pairs with
  | nil => intro doms c _ hinv; simpa [domLoop] using hinv
  | cons p rest ih =>
    obtain ⟨i, lang⟩ := p
    intro doms c hp hinv
    have hlang : lang ∈ langs := hp _ (List.mem_cons_self _ _)
    have hrest : ∀ q ∈ rest, q.2 ∈ langs := fun q hq => hp q (List.mem_cons_of_mem _ hq)
    simp only [domLoop]
    split
    · split
      · split
        · refine ih _ _ hrest ?_
          intro d2 e he k hk
          rw [lookup_dinsert] at he
          by_cases hd2 : d2 = d
          · rw [if_pos hd2] at he
            simp only [Option.some.injEq] at he
            subst he
            rcases mem_dkeys_dinsert hk with h | h
            · exact h ▸ hlang
            · cases hLook : doms.lookup d with
              | none => rw [hLook] at h; simp [dkeys] at h
              | some e0 => rw [hLook] at h; exact hinv d e0 hLook k h
          · rw [if_neg hd2] at he
            exact hinv d2 e he k hk
        · exact ih _ _ hrest hinv
      · exact ih _ _ hrest hinv
    · exact ih _ _ hrest hinv

theorem processRow_minv (s : MatrixState) (h : MInv s) : MInv (MatrixPage.processRow s) := by
  have hpairs : ∀ p ∈ pyEnumerate s.languages, p.2 ∈ s.languages :=
    fun p hp => mem_of_mem_pyEnumFrom 0 _ hp
  unfold MatrixPage.processRow
  split
  · exact h
  · split
    · obtain ⟨h1, h2, h3⟩ := h
      have hres := pctLoop_minv s.current_row s.languages (pyEnumerate s.languages)
        s.lang_percentages hpairs h1 h2
      exact ⟨hres.1, hres.2, h3⟩
    · split
      · obtain ⟨h1, h2, h3⟩ := h
        refine ⟨h1, h2, ?_⟩
        refine domLoop_minv s.current_row (s.current_domain.getD "") s.languages
          (pyEnumerate s.languages) _ 0 hpairs ?_
        intro d2 e he k hk
        rw [lookup_dinsert] at he
        by_cases hd2 : d2 = s.current_domain.getD ""
        · rw [if_pos hd2] at he
          simp only [Option.some.injEq] at he
          subst he
          simp [dkeys] at hk
        · rw [if_neg hd2] at he
          exact h3 d2 e he k hk
      · exact h

theorem starttag_minv (s : MatrixState) (t : String) (a : List (String × String))
    (h : MInv s) : MInv (MatrixPage.handleStarttag s t a) := by
  unfold MatrixPage.handleStarttag
  repeat' split
  all_goals
    first
      | exact minv_of_fields h rfl rfl (fun k hk => hk)
      | exact minv_of_fields h rfl rfl (fun k hk => List.mem_append_left _ hk)

theorem data_minv (s : MatrixState) (d : String) (h : MInv s) :
    MInv (MatrixPage.handleData s d) := by
  unfold MatrixPage.handleData
  split
  · exact minv_of_fields h rfl rfl (fun k hk => hk)
  · exact h

theorem endtag_minv (s : MatrixState) (t : String) (h : MInv s) :
    MInv (MatrixPage.handleEndtag s t) := by
  unfold MatrixPage.handleEndtag
  split
  · exact minv_of_fields h rfl rfl (fun k hk => hk)
  · split
    · exact processRow_minv s h
    · exact h

theorem step_minv (s : MatrixState) (ev : HEvent) (h : MInv s) :
    MInv (MatrixPage.step s ev) := by
  cases ev with
  | startTag t a => exact starttag_minv s t a h
  | endTag t => exact endtag_minv s t h
  | text d => exact data_minv s d h

theorem foldl_minv (evs : List HEvent) :
    ∀ (s : MatrixState), MInv s → MInv (evs.foldl MatrixPage.step s) := by
  induction evs with
  | nil => intro s h; simpa using h
  | cons e rest ih => intro s h; exact ih _ (step_minv s e h)

theorem init_minv : MInv MatrixPage.init := by
  refine ⟨?_, ?_, ?_⟩
  · intro k hk; simp [MatrixPage.init, dkeys] at hk
  · simp [MatrixPage.init, dkeys]
  · intro d e he; simp [MatrixPage.init] at he

theorem run_minv (evs : List HEvent) : MInv (MatrixPage.run evs) :=
  foldl_minv evs MatrixPage.init init_minv

/-! ### The team-page machine after a row boundary, without mail links -/

theorem tp_step_no_mail (s : TeamPageState) (ev : HEvent)
    (hflag : s.in_translator_cell = false) (hm : isMailtoAnchor ev = false) :
    (TeamPage.step s ev).translators = s.translators
    ∧ (TeamPage.step s ev).in_translator_cell = false := by
  cases ev with
  | startTag t attrs =>
    simp only [TeamPage.step, TeamPage.handleStarttag]
    split
    next hta =>
      subst hta
      simp only [isMailtoAnchor, beq_self_eq_true, Bool.true_and] at hm
      split
      · split <;> exact ⟨rfl, hflag⟩
      · split
        · split <;> exact ⟨rfl, hflag⟩
        · split
          next hmail => rw [hm] at hmail; exact absurd hmail (by simp)
          next => exact ⟨rfl, hflag⟩
    next => exact ⟨rfl, hflag⟩
  | endTag t =>
    simp only [TeamPage.step, TeamPage.handleEndtag]
    split
    · exact ⟨rfl, rfl⟩
    · exact ⟨rfl, hflag⟩
  | text d =>
    simp [TeamPage.step, TeamPage.handleData, hflag]

theorem tp_foldl_no_mail (evs : List HEvent) :
    ∀ (s : TeamPageState), s.in_translator_cell = false →
      (∀ ev ∈ evs, isMailtoAnchor ev = false) →
      (evs.foldl TeamPage.step s).translators = s.translators := by
  induction evs with
  | nil => intro s _ _; rfl
  | cons e rest ih =>
    intro s hflag hm
    have h1 := tp_step_no_mail s e hflag (hm e (List.mem_cons_self _ _))
    have h2 := ih (TeamPage.step s e) h1.2 (fun ev hev => hm ev (List.mem_cons_of_mem _ hev))
    simp only [List.foldl_cons]
    rw [h2, h1.1]

/-! ### The summary-row loop: splitting and non-writing segments -/

theorem pctLoop_append (row : List String) :
    ∀ (xs ys : List (Nat × String)) (lp : Dict Int),
      pctLoop row lp (xs ++ ys) = pctLoop row (pctLoop row lp xs) ys := by
  intro xs
  induction xs with
  | nil => intro ys lp; rfl
  | cons p rest ih =>
    obtain ⟨i, lang⟩ := p
    intro ys lp
    simp only [List.cons_append, pctLoop]
    split
    · split <;> exact ih ys _
    · exact ih ys lp

theorem pctLoop_nowrite (row : List String) (lang : String) :
    ∀ (pairs : List (Nat × String)) (lp : Dict Int),
      (∀ p ∈ pairs, p.2 = lang → ¬ (p.1 + 2 < row.length)) →
      (pctLoop row lp pairs).lookup lang = lp.lookup lang := by
  intro pairs
  induction pairs with
  | nil => intro lp _; rfl
  | cons p rest ih =>
    obtain ⟨i, a⟩ := p
    intro lp hp
    have hrest : ∀ q ∈ rest, q.2 = lang → ¬ (q.1 + 2 < row.length) :=
      fun q hq => hp q (List.mem_cons_of_mem _ hq)
    simp only [pctLoop]
    split
    next hlt =>
      have hne : a ≠ lang := fun he => hp (i, a) (List.mem_cons_self _ _) he hlt
      have hlk : ∀ (v : Int), (dinsert lp a v).lookup lang = lp.lookup lang := by
        intro v
        rw [lookup_dinsert, if_neg (fun hh => hne hh.symm)]
      split
      · rw [ih _ hrest, hlk]
      · rw [ih _ hrest, hlk]
    next => exact ih lp hrest

/-! ### The domain-row loop tracks a single entry -/

theorem domLoop_tracks (row : List String) (d : String) :
    ∀ (pairs : List (Nat × String)) (doms : Dict (Dict Int)) (c : Int) (e : Dict Int),
      doms.lookup d = some e →
      (domLoop row d doms c pairs).1.lookup d = some (rowEntryLoop row e c pairs).1
      ∧ (domLoop row d doms c pairs).2 = (rowEntryLoop row e c pairs).2 := by
  intro pairs
  induction pairs with
  | nil => intro doms c e he; exact ⟨he, rfl⟩
  | cons p rest ih =>
    obtain ⟨i, lang⟩ := p
    intro doms c e he
    simp only [domLoop, rowEntryLoop]
    split
    · split
      · split
        · refine ih _ _ _ ?_
          rw [lookup_dinsert, if_pos rfl, he]
          rfl
        · exact ih _ _ _ he
      · exact ih _ _ _ he
    · exact ih _ _ _ he

/-! ### Provenance of stored values: every stored value is a cell parse -/

theorem pctLoop_values (row : List String) (lang : String) (v : Int) :
    ∀ (pairs : List (Nat × String)) (lp : Dict Int),
      (pctLoop row lp pairs).lookup lang = some v →
      lp.lookup lang = some v ∨
      ∃ i, (i, lang) ∈ pairs ∧ i + 2 < row.length ∧
        (pyInt (removePct (row.getD (i + 2) "")) = some v ∨
         (pyInt (removePct (row.getD (i + 2) "")) = none ∧ v = 0)) := by
  intro pairs
  induction pairs with
  | nil => intro lp h; exact Or.inl h
  | cons p rest ih =>
    obtain ⟨j, a⟩ := p
    intro lp h
    simp only [pctLoop] at h
    by_cases hlt : j + 2 < row.length
    · rw [if_pos hlt] at h
      cases hpi : pyInt (removePct (row.getD (j + 2) "")) with
      | some n =>
        simp only [hpi] at h
        rcases ih _ h with h2 | ⟨i, hi, hlt2, hv⟩
        · rw [lookup_dinsert] at h2
          by_cases hla : lang = a
          · rw [if_pos hla] at h2
            simp only [Option.some.injEq] at h2
            refine Or.inr ⟨j, by rw [hla]; exact List.mem_cons_self _ _, hlt, Or.inl ?_⟩
            rw [h2] at hpi
            exact hpi
          · rw [if_neg hla] at h2
            exact Or.inl h2
        · exact Or.inr ⟨i, List.mem_cons_of_mem _ hi, hlt2, hv⟩
      | none =>
        simp only [hpi] at h
        rcases ih _ h with h2 | ⟨i, hi, hlt2, hv⟩
        · rw [lookup_dinsert] at h2
          by_cases hla : lang = a
          · rw [if_pos hla] at h2
            simp only [Option.some.injEq] at h2
            exact Or.inr ⟨j, by rw [hla]; exact List.mem_cons_self _ _, hlt,
              Or.inr ⟨hpi, h2.symm⟩⟩
          · rw [if_neg hla] at h2
            exact Or.inl h2
        · exact Or.inr ⟨i, List.mem_cons_of_mem _ hi, hlt2, hv⟩
    · rw [if_neg hlt] at h
      rcases ih _ h with h2 | ⟨i, hi, hlt2, hv⟩
      · exact Or.inl h2
      · exact Or.inr ⟨i, List.mem_cons_of_mem _ hi, hlt2, hv⟩

theorem domLoop_values (row : List String) (d : String) (lang : String) (v : Int) :
    ∀ (pairs : List (Nat × String)) (doms : Dict (Dict Int)) (c : Int) (d2 : String)
      (e : Dict Int),
      (domLoop row d doms c pairs).1.lookup d2 = some e →
      e.lookup lang = some v →
      (∃ e0, doms.lookup d2 = some e0 ∧ e0.lookup lang = some v) ∨
      ∃ i, (i, lang) ∈ pairs ∧ i + 2 < row.length ∧
        pyInt (removePct (row.getD (i + 2) "")) = some v := by
  intro pairs
  induction pairs with
  | nil => intro doms c d2 e h1 h2; exact Or.inl ⟨e, h1, h2⟩
  | cons p rest ih =>
    obtain ⟨j, a⟩ := p
    intro doms c d2 e h1 h2
    simp only [domLoop] at h1
    by_cases hlt : j + 2 < row.length
    · rw [if_pos hlt] at h1
      by_cases hcell : row.getD (j + 2) "" ≠ "" ∧ row.getD (j + 2) "" ≠ "\u00A0"
      · rw [if_pos hcell] at h1
        cases hpi : pyInt (removePct (row.getD (j + 2) "")) with
        | some n =>
          simp only [hpi] at h1
          rcases ih _ _ _ _ h1 h2 with ⟨e0, he0, hv0⟩ | ⟨i, hi, hlt2, hv⟩
          · rw [lookup_dinsert] at he0
            by_cases hd2 : d2 = d
            · rw [if_pos hd2] at he0
              simp only [Option.some.injEq] at he0
              subst he0
              rw [lookup_dinsert] at hv0
              by_cases hla : lang = a
              · rw [if_pos hla] at hv0
                simp only [Option.some.injEq] at hv0
                refine Or.inr ⟨j, by rw [hla]; exact List.mem_cons_self _ _, hlt, ?_⟩
                rw [hv0] at hpi
                exact hpi
              · rw [if_neg hla] at hv0
                cases hdl : doms.lookup d with
                | none => rw [hdl] at hv0; simp [List.lookup] at hv0
                | some e1 =>
                  rw [hdl] at hv0
                  exact Or.inl ⟨e1, by rw [hd2]; exact hdl, hv0⟩
            · rw [if_neg hd2] at he0
              exact Or.inl ⟨e0, he0, hv0⟩
          · exact Or.inr ⟨i, List.mem_cons_of_mem _ hi, hlt2, hv⟩
        | none =>
          simp only [hpi] at h1
          rcases ih _ _ _ _ h1 h2 with h3 | ⟨i, hi, hlt2, hv⟩
          · exact Or.inl h3
          · exact Or.inr ⟨i, List.mem_cons_of_mem _ hi, hlt2, hv⟩
      · rw [if_neg hcell] at h1
        rcases ih _ _ _ _ h1 h2 with h3 | ⟨i, hi, hlt2, hv⟩
        · exact Or.inl h3
        · exact Or.inr ⟨i, List.mem_cons_of_mem _ hi, hlt2, hv⟩
    · rw [if_neg hlt] at h1
      rcases ih _ _ _ _ h1 h2 with h3 | ⟨i, hi, hlt2, hv⟩
      · exact Or.inl h3
      · exact Or.inr ⟨i, List.mem_cons_of_mem _ hi, hlt2, hv⟩

/-! ### Claim theorems -/

/-- C1: on a matrix page whose header yields languages en and fr and whose
body contains the completed summary row with cells empty, Pct, 87 percent,
42 percent (cell index 1 is the literal Pct), the extractor reads cell i+2
for the language at position i, strips the percent sign, parses the
integer, and produces lang_percentages mapping en to 87 and fr to 42. -/
theorem matrix_summary_row_offset :
    (MatrixPage.run summaryPageEvents).languages = ["en", "fr"]
    ∧ (MatrixPage.run summaryPageEvents).lang_percentages = [("en", 87), ("fr", 42)] := by
  constructor
  · decide
  · decide

/-- C2: with languages en and fr, processing a completed data row with
current_domain coreutils and cells coreutils, empty, 100 percent and a
no-break space stores exactly the entry en maps to 100 under coreutils
(the no-break-space cell for fr is skipped, no zero entry), and since the
last cell is not purely digits, domain_counts for coreutils is the running
count 1. -/
theorem matrix_domain_row_skip_count :
    (MatrixPage.processRow coreutilsRowState).domains = [("coreutils", [("en", 100)])]
    ∧ (MatrixPage.processRow coreutilsRowState).domain_counts = [("coreutils", 1)] := by
  constructor
  · decide
  · decide

/-- C3: for every input event stream, every key of lang_percentages is a
member of the languages sequence, the size of lang_percentages is at most
the size of languages, and for every domain entry every key is a member of
languages. -/
theorem matrix_key_subset_invariant (evs : List HEvent) :
    (∀ k, k ∈ dkeys (MatrixPage.run evs).lang_percentages → k ∈ (MatrixPage.run evs).languages)
    ∧ (MatrixPage.run evs).lang_percentages.length ≤ (MatrixPage.run evs).languages.length
    ∧ (∀ d e, (MatrixPage.run evs).domains.lookup d = some e →
        ∀ k, k ∈ dkeys e → k ∈ (MatrixPage.run evs).languages) := by
  obtain ⟨h1, h2, h3⟩ := run_minv evs
  refine ⟨h1, ?_, h3⟩
  have hlen : (dkeys (MatrixPage.run evs).lang_percentages).length
      = (MatrixPage.run evs).lang_percentages.length := by
    simp [dkeys]
  calc (MatrixPage.run evs).lang_percentages.length
      = (dkeys (MatrixPage.run evs).lang_percentages).length := hlen.symm
    _ ≤ (MatrixPage.run evs).languages.length := nodup_length_le _ _ h2 h1

/-- Witness for C3: on the mixed page the domain entry of hello has key en,
which the theorem places among the languages. -/
theorem matrix_key_subset_invariant_witness :
    "en" ∈ (MatrixPage.run mixedPageEvents).languages :=
  (matrix_key_subset_invariant mixedPageEvents).2.2 "hello" [("en", 100)]
    (by decide) "en" (by decide)

/-- Counterexample to C4: the summary-row cell 150 percent for language en
is stored as 150, which lies outside the range 0 to 100 — the extractor
performs no clamping. -/
theorem matrix_range_counterexample :
    (MatrixPage.run overflowPageEvents).lang_percentages.lookup "en" = some 150
    ∧ ¬ ((150 : Int) ≤ 100) := by
  constructor
  · decide
  · decide

/-- C4 as amended: for every parser state, every value present after
_process_row is either carried over unchanged from before the row, or is
exactly the integer parsed from the cell aligned with its language — in
the summary row the parse result, or 0 when the parse fails; in a domain
row only a successful parse result, never a default.  No clamping to the
range 0 to 100 is performed anywhere, so out-of-range parses (such as the
150 of the counterexample, or a minus-5-percent cell) are stored
unchanged. -/
theorem matrix_range_amended (s : MatrixState) (lang : String) (v : Int) :
    ((MatrixPage.processRow s).lang_percentages.lookup lang = some v →
      s.lang_percentages.lookup lang = some v ∨
      ∃ i, (i, lang) ∈ pyEnumerate s.languages ∧ i + 2 < s.current_row.length ∧
        (pyInt (removePct (s.current_row.getD (i + 2) "")) = some v ∨
         (pyInt (removePct (s.current_row.getD (i + 2) "")) = none ∧ v = 0)))
    ∧ (∀ d e, (MatrixPage.processRow s).domains.lookup d = some e →
        e.lookup lang = some v →
        (∃ e0, s.domains.lookup d = some e0 ∧ e0.lookup lang = some v) ∨
        ∃ i, (i, lang) ∈ pyEnumerate s.languages ∧ i + 2 < s.current_row.length ∧
          pyInt (removePct (s.current_row.getD (i + 2) "")) = some v) := by
  constructor
  · intro h
    unfold MatrixPage.processRow at h
    by_cases h3 : s.current_row.length < 3
    · rw [if_pos h3] at h
      exact Or.inl h
    · rw [if_neg h3] at h
      by_cases hpct : s.current_row.getD 1 "" = "Pct"
      · rw [if_pos hpct] at h
        replace h : (pctLoop s.current_row s.lang_percentages
            (pyEnumerate s.languages)).lookup lang = some v := h
        exact pctLoop_values s.current_row lang v _ _ h
      · rw [if_neg hpct] at h
        by_cases htr : pyTruthy s.current_domain = true
        · rw [if_pos htr] at h
          exact Or.inl h
        · rw [if_neg htr] at h
          exact Or.inl h
  · intro d e h1 h2
    unfold MatrixPage.processRow at h1
    by_cases h3 : s.current_row.length < 3
    · rw [if_pos h3] at h1
      exact Or.inl ⟨e, h1, h2⟩
    · rw [if_neg h3] at h1
      by_cases hpct : s.current_row.getD 1 "" = "Pct"
      · rw [if_pos hpct] at h1
        exact Or.inl ⟨e, h1, h2⟩
      · rw [if_neg hpct] at h1
        by_cases htr : pyTruthy s.current_domain = true
        · rw [if_pos htr] at h1
          replace h1 : (domLoop s.current_row (s.current_domain.getD "")
              (dinsert s.domains (s.current_domain.getD "") []) 0
              (pyEnumerate s.languages)).1.lookup d = some e := h1
          rcases domLoop_values s.current_row (s.current_domain.getD "") lang v
              _ _ _ _ _ h1 h2 with ⟨e0, he0, hv0⟩ | h4
          · rw [lookup_dinsert] at he0
            by_cases hd2 : d = s.current_domain.getD ""
            · rw [if_pos hd2] at he0
              simp only [Option.some.injEq] at he0
              subst he0
              simp [List.lookup] at hv0
            · rw [if_neg hd2] at he0
              exact Or.inl ⟨e0, he0, hv0⟩
          · exact Or.inr h4
        · rw [if_neg htr] at h1
          exact Or.inl ⟨e, h1, h2⟩

/-- Witness for the amended C4: on the minus-5-percent domain row the
theorem traces the stored value minus 5 back to its aligned cell (it was
not carried over, since the prior domains dict is empty). -/
theorem matrix_range_amended_witness :
    (∃ e0, negativeRowState.domains.lookup "hello" = some e0 ∧ e0.lookup "en" = some (-5)) ∨
    ∃ i, (i, "en") ∈ pyEnumerate negativeRowState.languages
      ∧ i + 2 < negativeRowState.current_row.length
      ∧ pyInt (removePct (negativeRowState.current_row.getD (i + 2) "")) = some (-5) :=
  (matrix_range_amended negativeRowState "en" (-5)).2 "hello" [("en", -5)]
    (by decide) (by decide)

/-- C5: a PO-file link target beginning with one parent-directory segment
resolves to the base URL, one slash and the rest, and a target beginning
with a slash is prefixed with the base URL directly; both normalized URLs
are appended to po_files. -/
theorem teampage_po_url_normalization (s : TeamPageState) :
    (TeamPage.handleStarttag s "a" [("href", "../PO-files/coreutils-9.1.sv.po")]).po_files
      = s.po_files ++ [TP_BASE ++ "/PO-files/coreutils-9.1.sv.po"]
    ∧ (TeamPage.handleStarttag s "a" [("href", "/PO-files/x.po")]).po_files
      = s.po_files ++ [TP_BASE ++ "/PO-files/x.po"] := by
  constructor
  · rfl
  · rfl

/-- Counterexample to C6: in a row where the domain-detail link naming
findutils comes first and the PO-file link of coreutils second, the final
current_domain is coreutils, not findutils — the explicit link does not
win regardless of order. -/
theorem teampage_domain_precedence_counterexample :
    (TeamPage.run [domainLinkEvent, poLinkEvent]).current_domain = some "coreutils"
    ∧ (TeamPage.run [domainLinkEvent, poLinkEvent]).current_domain ≠ some "findutils" := by
  constructor
  · decide
  · decide

/-- C6 as amended: assignments to current_domain are last-writer-wins, so
the explicit domain-detail link wins exactly when it appears after the
PO-file link; in the opposite order the filename-derived guess stands. -/
theorem teampage_domain_precedence_amended (s : TeamPageState) :
    (TeamPage.step (TeamPage.step s poLinkEvent) domainLinkEvent).current_domain
      = some "findutils"
    ∧ (TeamPage.step (TeamPage.step s domainLinkEvent) poLinkEvent).current_domain
      = some "coreutils" := by
  constructor
  · rfl
  · rfl

/-- C7: a closing table-row tag resets current_domain and the
awaiting-translator flag, and after such a boundary a stream without any
mailto link never adds a translators entry: a domain d2 absent before the
boundary is still absent afterwards. -/
theorem teampage_row_boundary_reset (s : TeamPageState) (evs : List HEvent) (d2 : String)
    (hmail : ∀ ev ∈ evs, isMailtoAnchor ev = false)
    (hnew : s.translators.lookup d2 = none) :
    (TeamPage.step s (HEvent.endTag "tr")).current_domain = none
    ∧ (TeamPage.step s (HEvent.endTag "tr")).in_translator_cell = false
    ∧ (evs.foldl TeamPage.step (TeamPage.step s (HEvent.endTag "tr"))).translators.lookup d2
        = none := by
  have hstep : TeamPage.step s (HEvent.endTag "tr")
      = { s with current_domain := none, in_translator_cell := false } := by
    simp [TeamPage.step, TeamPage.handleEndtag]
  refine ⟨by rw [hstep], by rw [hstep], ?_⟩
  rw [tp_foldl_no_mail evs _ (by rw [hstep]) hmail, hstep]
  exact hnew

/-- Witness for C7: two consecutive rows, the first with the only mailto
link, the second introducing findutils — no translators entry appears for
findutils. -/
theorem teampage_row_boundary_reset_witness :
    (domainRowEvents.foldl TeamPage.step
        (TeamPage.step (TeamPage.run mailRowEvents) (HEvent.endTag "tr"))).translators.lookup
      "findutils" = none :=
  (teampage_row_boundary_reset (TeamPage.run mailRowEvents) domainRowEvents "findutils"
    (by decide) (by decide)).2.2

/-- C8: in a summary row (cell index 1 equal to Pct), when the cell
aligned with the language at position i fails integer parsing after
stripping the percent sign, the extractor does not drop the key: it stores
0 under that language (stated for the last in-range occurrence of the
language, via a decomposition of the enumerated language list). -/
theorem matrix_summary_malformed_cell_zero (s : MatrixState)
    (pre post : List (Nat × String)) (i : Nat) (lang : String)
    (hlen : ¬ s.current_row.length < 3)
    (hpct : s.current_row.getD 1 "" = "Pct")
    (henum : pyEnumerate s.languages = pre ++ (i, lang) :: post)
    (hin : i + 2 < s.current_row.length)
    (hfail : pyInt (removePct (s.current_row.getD (i + 2) "")) = none)
    (hlast : ∀ p ∈ post, p.2 = lang → ¬ (p.1 + 2 < s.current_row.length)) :
    (MatrixPage.processRow s).lang_percentages.lookup lang = some 0 := by
  unfold MatrixPage.processRow
  rw [if_neg hlen, if_pos hpct]
  show (pctLoop s.current_row s.lang_percentages (pyEnumerate s.languages)).lookup lang
      = some 0
  rw [henum, pctLoop_append]
  simp only [pctLoop]
  rw [if_pos hin, hfail]
  rw [pctLoop_nowrite _ _ _ _ hlast, lookup_dinsert, if_pos rfl]

/-- Witness for C8: languages en, summary row with the unparseable cell
abc percent, yields the entry en maps to 0. -/
theorem matrix_summary_malformed_cell_zero_witness :
    (MatrixPage.processRow malformedPctRowState).lang_percentages.lookup "en" = some 0 :=
  matrix_summary_malformed_cell_zero malformedPctRowState [] [] 0 "en"
    (by decide) (by decide) (by decide) (by decide) (by decide) (by decide)

/-- C9: when text matching the two-or-three-lowercase-letters pattern is
observed right inside a table cell while no pending display name exists,
the language-index extractor leaves its state unchanged (no entry, no
error), and in general an entry can only be appended when a pending
display name exists. -/
theorem teamindex_stray_code_skipped (s : TeamIndexState) (d : String)
    (hp : s.prev_tag = some "td") (hn : s.current_lang_name = none)
    (hm : matchCode23 (pyStrip d) = true) :
    TeamIndex.handleData s d = s
    ∧ (∀ (t : TeamIndexState) (e : String), t.current_lang_name = none →
        (TeamIndex.handleData t e).languages = t.languages) := by
  constructor
  · have h1 : ¬ (s.prev_tag = some "a" ∧ pyStrip d ≠ ""
        ∧ strStartsWith (pyStrip d) "mailto:" = false) := by
      rintro ⟨hc, -⟩
      rw [hp] at hc
      exact absurd hc (by decide)
    have h3 : ¬ (pyTruthy s.current_lang_name = true) := by
      rw [hn]
      decide
    unfold TeamIndex.handleData
    rw [if_neg h1, if_pos ⟨hp, hm⟩, if_neg h3]
  · intro t e ht
    unfold TeamIndex.handleData
    split
    · split
      · rfl
      · rfl
    · split
      · split
        next htr => rw [ht] at htr; exact absurd htr (by decide)
        next => rfl
      · rfl

/-- Witness for C9: a stray code cell sv with no pending name leaves the
state unchanged. -/
theorem teamindex_stray_code_skipped_witness :
    TeamIndex.handleData
        { languages := [], prev_tag := some "td", current_lang_name := none } "sv"
      = { languages := [], prev_tag := some "td", current_lang_name := none } :=
  (teamindex_stray_code_skipped
    { languages := [], prev_tag := some "td", current_lang_name := none } "sv"
    rfl rfl (by decide)).1

/-- C10: a data row that captures domain d overwrites wholesale: whatever
domains and domain_counts held for d before, after processing the row the
entry and the count for d are exactly those computed from this row alone
(rowSummary starts from the empty entry), so entries recorded by an
earlier row for the same domain are discarded, not merged. -/
theorem matrix_duplicate_domain_overwrite (s : MatrixState) (d : String)
    (hd : s.current_domain = some d) (hne : d ≠ "")
    (hlen : ¬ s.current_row.length < 3)
    (hpct : s.current_row.getD 1 "" ≠ "Pct") :
    (MatrixPage.processRow s).domains.lookup d
      = some (rowSummary s.languages s.current_row).1
    ∧ (MatrixPage.processRow s).domain_counts.lookup d
      = some (rowSummary s.languages s.current_row).2 := by
  have htr : pyTruthy s.current_domain = true := by
    rw [hd]
    simpa [pyTruthy] using hne
  have hgetD : s.current_domain.getD "" = d := by rw [hd]; rfl
  unfold MatrixPage.processRow
  rw [if_neg hlen, if_neg hpct, if_pos htr, hgetD]
  have htrack := domLoop_tracks s.current_row d (pyEnumerate s.languages)
    (dinsert s.domains d []) 0 [] (by rw [lookup_dinsert, if_pos rfl])
  constructor
  · show (domLoop s.current_row d (dinsert s.domains d []) 0
        (pyEnumerate s.languages)).1.lookup d = some (rowSummary s.languages s.current_row).1
    rw [htrack.1]
    rfl
  · show (dinsert s.domain_counts d
        (if pyIsDigit (s.current_row.getLastD "") then pyIntVal (s.current_row.getLastD "")
         else (domLoop s.current_row d (dinsert s.domains d []) 0
           (pyEnumerate s.languages)).2)).lookup d
      = some (rowSummary s.languages s.current_row).2
    rw [lookup_dinsert, if_pos rfl, htrack.2]
    rfl

/-- Witness for C10: with a stale coreutils entry fr maps to 99 and count
7 in the state, the row coreutils, empty, 50 percent, 25 percent leaves
exactly the fresh entry en maps to 50, fr maps to 25 and count 2. -/
theorem matrix_duplicate_domain_overwrite_witness :
    (MatrixPage.processRow staleDomainState).domains.lookup "coreutils"
      = some [("en", 50), ("fr", 25)]
    ∧ (MatrixPage.processRow staleDomainState).domain_counts.lookup "coreutils" = some 2 := by
  have h := matrix_duplicate_domain_overwrite staleDomainState "coreutils"
    (by decide) (by decide) (by decide) (by decide)
  exact ⟨h.1.trans (by decide), h.2.trans (by decide)⟩

/-- Witness for C5: applied at the initial state, the two normalized URLs
are appended to the empty po_files list. -/
theorem teampage_po_url_normalization_witness :
    (TeamPage.handleStarttag TeamPage.init "a"
        [("href", "../PO-files/coreutils-9.1.sv.po")]).po_files
      = ["https://translationproject.org/PO-files/coreutils-9.1.sv.po"] :=
  (teampage_po_url_normalization TeamPage.init).1.trans (by decide)

/-- Witness for the amended C6: from the initial state, the PO-file link
followed by the domain-detail link ends with current_domain findutils. -/
theorem teampage_domain_precedence_amended_witness :
    (TeamPage.step (TeamPage.step TeamPage.init poLinkEvent) domainLinkEvent).current_domain
      = some "findutils" :=
  (teampage_domain_precedence_amended TeamPage.init).1
